import Mathlib

/-!
Verification of the numerical core of the subtext color-grade trainers.

Shallow embedding, over exact rationals, of the Python sources
lut_trainer/create_lut.py, vibe_trainer/run.py and
vibe_trainer/dark_academia/algorithm.py.  Floating-point arithmetic is
modelled by exact rational arithmetic; decimal literals from the source
appear as exact fractions.  Images are lists of rows of RGB pixels
(numpy arrays of shape (h, w, 3) in row-major order); vectorized numpy
expressions are rendered as the corresponding per-pixel maps.
-/

namespace Subtext


/-- An RGB pixel: three rational channel values. -/
abbrev Pix : Type := ℚ × ℚ × ℚ

/-- An image: a list of rows of pixels. -/
abbrev Image : Type := List (List Pix)

/-- Embedding of numpy clip(x, 0.0, 1.0). -/
def clip01 (x : ℚ) : ℚ := max 0 (min 1 x)

/-- Channel-wise clip of a pixel to the unit cube. -/
def clipPix (p : Pix) : Pix := (clip01 p.1, clip01 p.2.1, clip01 p.2.2)

/-- A rational is within the unit interval. -/
def in01 (x : ℚ) : Prop := 0 ≤ x ∧ x ≤ 1

/-- Every channel of every pixel of the image lies in the unit interval. -/
def imageIn01 (img : Image) : Prop :=
  ∀ row ∈ img, ∀ p ∈ row, in01 p.1 ∧ in01 p.2.1 ∧ in01 p.2.2

/-- Two images have identical shape: same row count and same per-row widths. -/
def sameShape (a b : Image) : Prop := a.map List.length = b.map List.length

/-- Python round: round half to even (banker's rounding), on exact rationals. -/
def pyRound (q : ℚ) : ℤ :=
  if q - ⌊q⌋ < 1/2 then ⌊q⌋
  else if 1/2 < q - ⌊q⌋ then ⌊q⌋ + 1
  else if Even ⌊q⌋ then ⌊q⌋ else ⌊q⌋ + 1

/-- Inner side length of crop_inner_region: max(1, int(round(side * frac))). -/
def innerLen (side : ℕ) (frac : ℚ) : ℕ := (max 1 (pyRound (side * frac))).toNat

/-- Embedding of crop_inner_region (create_lut.py lines 119-125): retain the
centered block of max(1, round(h * frac)) rows by max(1, round(w * frac))
columns, where h and w come from the image shape. -/
def crop_inner_region (img : Image) (frac : ℚ) : Image :=
  let h := img.length
  let w := (img.headD []).length
  let ih := innerLen h frac
  let iw := innerLen w frac
  let y0 := (h - ih) / 2
  let x0 := (w - iw) / 2
  ((img.drop y0).take ih).map fun row => (row.drop x0).take iw

/-- Output luma anchors of the dark-academia procedural grade
(dark_academia/algorithm.py lines 72-75), as a function of the
aggregate reference-luma percentile statistics ref_p10, ref_mid, ref_p90. -/
def targetAnchors (refP10 refMid refP90 : ℚ) : ℚ × ℚ × ℚ :=
  let targetShadow := max (2/100) (min (20/100) (refP10 + 1/100))
  let targetMidtone := max (targetShadow + 5/100) (min (48/100) (refMid + 2/100))
  let targetHigh := max (targetMidtone + 8/100) (min (86/100) (refP90 - 2/100))
  (targetShadow, targetMidtone, targetHigh)

/-- One degree block of build_exponents: all triples of a fixed total degree,
with the first exponent descending from deg to 0 and, for each value of the
first, the second descending from deg minus the first to 0. -/
def degBlock (deg : ℕ) : List (ℕ × ℕ × ℕ) :=
  ((List.range (deg + 1)).reverse).flatMap fun a =>
    ((List.range (deg - a + 1)).reverse).map fun b => (a, b, deg - a - b)

/-- Embedding of build_exponents (create_lut.py lines 47-54): Python
range(deg, -1, -1) is the reverse of range(deg + 1), and likewise for the
inner loop over b; c is deg - a - b. -/
def build_exponents (max_degree : ℕ) : List (ℕ × ℕ × ℕ) :=
  (List.range (max_degree + 1)).flatMap degBlock

/-- Embedding of build_exponents from vibe_trainer/run.py lines 95-102; the
source loop is textually identical to the create_lut.py one except that it
spells range(max_degree + 1) instead of range(0, max_degree + 1). -/
def build_exponents_run (max_degree : ℕ) : List (ℕ × ℕ × ℕ) :=
  (List.range (max_degree + 1)).flatMap fun deg =>
    ((List.range (deg + 1)).reverse).flatMap fun a =>
      ((List.range (deg - a + 1)).reverse).map fun b => (a, b, deg - a - b)

/-- Enumeration order of the feature basis: total degree ascending; within a
degree the first exponent descending, then the second descending. -/
def expBefore (x y : ℕ × ℕ × ℕ) : Prop :=
  x.1 + x.2.1 + x.2.2 < y.1 + y.2.1 + y.2.2 ∨
    (x.1 + x.2.1 + x.2.2 = y.1 + y.2.1 + y.2.2 ∧
      (y.1 < x.1 ∨ (x.1 = y.1 ∧ y.2.1 < x.2.1)))

/-- Value of the monomial R^a * G^b * B^c at a pixel. -/
def monomial (p : Pix) (e : ℕ × ℕ × ℕ) : ℚ := p.1 ^ e.1 * p.2.1 ^ e.2.1 * p.2.2 ^ e.2.2

/-- One row of phi times the coefficient matrix, clipped to the unit cube:
the fully graded prediction clip(phi(p) . coefs, 0, 1) for a single pixel.
coefs is stored aligned with exps; each entry holds the three output-channel
coefficients of one feature. -/
def gradedPix (coefs : List Pix) (exps : List (ℕ × ℕ × ℕ)) (p : Pix) : Pix :=
  (clip01 (((exps.zip coefs).map fun ec => monomial p ec.1 * ec.2.1).sum),
   clip01 (((exps.zip coefs).map fun ec => monomial p ec.1 * ec.2.2.1).sum),
   clip01 (((exps.zip coefs).map fun ec => monomial p ec.1 * ec.2.2.2).sum))

/-- Channel-wise blend src * (1 - t) + graded * t. -/
def blendPix (p g : Pix) (t : ℚ) : Pix :=
  (p.1 * (1 - t) + g.1 * t, p.2.1 * (1 - t) + g.2.1 * t, p.2.2 * (1 - t) + g.2.2 * t)

/-- Embedding of apply_poly (create_lut.py lines 82-93, identical in substance
to apply_poly_map of run.py lines 134-142): clamp the intensity to [0,1],
form the clipped graded prediction per pixel, blend with the input and clip.
The reshape pair of the source is the identity on the row-major grid, so the
vectorized operation is this per-pixel map. -/
def apply_poly (img : Image) (coefs : List Pix) (exps : List (ℕ × ℕ × ℕ))
    (intensity : ℚ) : Image :=
  img.map fun row => row.map fun p =>
    clipPix (blendPix p (gradedPix coefs exps p) (clip01 intensity))

/-- The fully graded prediction clip(phi(image) . coefs, 0, 1) as an image. -/
def gradedImage (img : Image) (coefs : List Pix) (exps : List (ℕ × ℕ × ℕ)) : Image :=
  img.map fun row => row.map fun p => gradedPix coefs exps p

/-- Embedding of numpy clip(x, lo, hi). -/
def clipQ (x lo hi : ℚ) : ℚ := max lo (min hi x)

/-- Truncation toward zero: the semantics of numpy float-to-integer astype
within the representable range. -/
def truncInt (q : ℚ) : ℤ := if 0 ≤ q then ⌊q⌋ else ⌈q⌉

/-- Quantized LUT index of a channel value in apply_cdf_match:
clip((v * 255.0 + 0.5) cast to int, 0, 255). -/
def lutIndex (v : ℚ) : ℕ := (min 255 (max 0 (truncInt (v * 255 + 1/2)))).toNat

/-- Embedding of apply_cdf_match (run.py lines 164-171): per channel, quantize
the input value to one of 256 levels, look the level up in that channel's
256-entry table, then blend with the original by the clamped intensity and
clip.  The three rows of the (3, 256) lut array are passed separately. -/
def apply_cdf_match (img : Image) (lutR lutG lutB : List ℚ) (intensity : ℚ) : Image :=
  img.map fun row => row.map fun p =>
    clipPix (blendPix p
      (lutR.getD (lutIndex p.1) 0, lutG.getD (lutIndex p.2.1) 0, lutB.getD (lutIndex p.2.2) 0)
      (clip01 intensity))

/-- Parameters of the dark-academia Procedural Grade Model, the dict built by
train in dark_academia/algorithm.py lines 86-97. -/
structure DAModel where
  anchorsIn : ℚ × ℚ × ℚ
  anchorsOut : ℚ × ℚ × ℚ
  satScale : ℚ
  targetBalance : ℚ × ℚ × ℚ
  warmTone : ℚ × ℚ × ℚ
  coolTone : ℚ × ℚ × ℚ
  cyanSuppression : ℚ
  vignetteStrength : ℚ
  matteLift : ℚ
  grainStrength : ℚ

/-- Embedding of _luma: Rec.601 luminance weights. -/
def luma (p : Pix) : ℚ := 299/1000 * p.1 + 587/1000 * p.2.1 + 114/1000 * p.2.2

/-- Piecewise-linear interpolation on a list of knots with increasing
abscissas, the semantics of np.interp: values at or left of the first knot
take the first ordinate, values right of the last knot take the last
ordinate. -/
def interpPts : List (ℚ × ℚ) → ℚ → ℚ
  | [], _ => 0
  | [(_, y0)], _ => y0
  | (x0, y0) :: (x1, y1) :: rest, v =>
      if v ≤ x0 then y0
      else if v ≤ x1 then y0 + (v - x0) * (y1 - y0) / (x1 - x0)
      else interpPts ((x1, y1) :: rest) v

/-- Embedding of _tone_map (dark_academia/algorithm.py lines 100-105): the
5-point curve through (0, max(0, y0*0.3)), the three anchor pairs, and
(1, min(1, y2*1.05)). -/
def toneMap (l : ℚ) (xin xout : ℚ × ℚ × ℚ) : ℚ :=
  interpPts [(0, max 0 (xout.1 * 3/10)), (xin.1, xout.1), (xin.2.1, xout.2.1),
    (xin.2.2, xout.2.2), (1, min 1 (xout.2.2 * 105/100))] l

/-- Tone remap and desaturation steps of predict (lines 136-145), which are
per-pixel: remap luma through the anchor curve, rescale the pixel by the luma
quotient (old luma floored at 1e-4), clip, then desaturate toward luma by
sat_scale and clip. -/
def toneSatPix (m : DAModel) (p : Pix) : Pix :=
  let l := luma p
  let lm := toneMap l m.anchorsIn m.anchorsOut
  let q := lm / max l (1/10000)
  let base := clipPix (p.1 * q, p.2.1 * q, p.2.2 * q)
  let bl := luma base
  clipPix (bl + (base.1 - bl) * m.satScale, bl + (base.2.1 - bl) * m.satScale,
    bl + (base.2.2 - bl) * m.satScale)

/-- Channel sums over all pixels of an image. -/
def channelSum (img : Image) : Pix :=
  img.foldl (fun acc row =>
    row.foldl (fun a p => (a.1 + p.1, a.2.1 + p.2.1, a.2.2 + p.2.2)) acc) (0, 0, 0)

/-- Number of pixels of an image. -/
def pixelCount (img : Image) : ℕ := (img.map List.length).sum

/-- Channel means over all pixels (numpy mean over the flattened axis). -/
def channelMean (img : Image) : Pix :=
  ((channelSum img).1 / pixelCount img, (channelSum img).2.1 / pixelCount img,
    (channelSum img).2.2 / pixelCount img)

/-- Embedding of _channel_balance (lines 26-30): per-channel means normalized
by the green mean floored at 1e-6. -/
def channel_balance (img : Image) : Pix :=
  let mean := channelMean img
  let g := max (1/1000000) mean.2.1
  (mean.1 / g, 1, mean.2.2 / g)

/-- Embedding of _coord_hash (lines 108-111): the h-by-w grid of
frac(sin(x * 12.9898 + y * 78.233) * 43758.5453) values, where np.mod(v, 1.0)
is the fractional part v - floor(v).  The transcendental sine is a parameter;
every property proved about the hash holds for an arbitrary function in its
place, so the rational embedding never needs to evaluate it. -/
def coordHash (sinq : ℚ → ℚ) (h w : ℕ) : List (List ℚ) :=
  (List.range h).map fun (y : ℕ) => (List.range w).map fun (x : ℕ) =>
    Int.fract (sinq ((x : ℚ) * (129898/10000) + (y : ℚ) * (78233/1000)) * (437585453/10000))

/-- Per-pixel tail of predict after the global balance gain is known
(lines 148-182): balance rescale, split-tone, cyan suppression, matte lift
and shoulder, vignette factor, grain noise; each step clips. -/
def gradePix (m : DAModel) (gain : Pix) (vig noiseV : ℚ) (p : Pix) : Pix :=
  let base := clipPix (p.1 * gain.1, p.2.1 * gain.2.1, p.2.2 * gain.2.2)
  let l2 := luma base
  let hiW := clip01 ((l2 - 50/100) / (50/100))
  let shW := clip01 ((55/100 - l2) / (55/100))
  let g1 := clipPix (base.1 + (hiW * m.warmTone.1 + shW * m.coolTone.1),
    base.2.1 + (hiW * m.warmTone.2.1 + shW * m.coolTone.2.1),
    base.2.2 + (hiW * m.warmTone.2.2 + shW * m.coolTone.2.2))
  let cyan := clip01 (g1.2.2 - max g1.1 g1.2.1)
  let cw := cyan * m.cyanSuppression
  let g2 : Pix := (clip01 (g1.1 + cw * (65/100)), clip01 (g1.2.1 + cw * (28/100)),
    clip01 (g1.2.2 - cw * 1))
  let g3 := clipPix (g2.1 * (1 - m.matteLift) + m.matteLift,
    g2.2.1 * (1 - m.matteLift) + m.matteLift, g2.2.2 * (1 - m.matteLift) + m.matteLift)
  let g4 := clipPix (g3.1 - max 0 (g3.1 - 88/100) * (28/100),
    g3.2.1 - max 0 (g3.2.1 - 88/100) * (28/100), g3.2.2 - max 0 (g3.2.2 - 88/100) * (28/100))
  let g5 := clipPix (g4.1 * vig, g4.2.1 * vig, g4.2.2 * vig)
  clipPix (g5.1 + noiseV * (95/100), g5.2.1 + noiseV * (80/100), g5.2.2 + noiseV * (65/100))

/-- Embedding of predict (dark_academia/algorithm.py lines 114-184).  The
sample argument is accepted and ignored exactly as in the source.  The
globally computed quantities (shape, clamped intensity, the tone-mapped image
used for the balance statistics, and the balance gain) are evaluated first;
the remaining vectorized steps are per-pixel maps over the coordinate grid,
ending in the intensity blend with the original and a final clip. -/
def predict (sinq : ℚ → ℚ) (img : Image) (m : DAModel) (intensity : ℚ)
    (sample : List (String × String)) : Image :=
  let _ := sample
  let h := img.length
  let w := (img.headD []).length
  let t := clip01 intensity
  let base2 := img.map fun row => row.map (toneSatPix m)
  let curBal := channel_balance base2
  let gain : Pix := (clipQ (m.targetBalance.1 / max curBal.1 (1/10000)) (75/100) (125/100),
    clipQ (m.targetBalance.2.1 / max curBal.2.1 (1/10000)) (75/100) (125/100),
    clipQ (m.targetBalance.2.2 / max curBal.2.2 (1/10000)) (75/100) (125/100))
  img.mapIdx fun y row => row.mapIdx fun x p =>
    let nx := ((x : ℚ) / max 1 ((w : ℚ) - 1)) * 2 - 1
    let ny := ((y : ℚ) / max 1 ((h : ℚ) - 1)) * 2 - 1
    let vig := 1 - m.vignetteStrength * clip01 (nx * nx + ny * ny)
    let noiseV := (((coordHash sinq h w).getD y []).getD x 0 - 1/2) * (m.grainStrength * 2)
    clipPix (blendPix p (gradePix m gain vig noiseV (toneSatPix m p)) t)

/-- Flattened channel values of an image: row-major pixel order, then R, G, B
within a pixel, matching the numpy array layout. -/
def channelValues (img : Image) : List ℚ :=
  img.flatMap fun row => row.flatMap fun p => [p.1, p.2.1, p.2.2]

/-- Entry-wise differences (pred - tgt) * 255.0 of mae_rmse. -/
def imgDiffs (pred tgt : Image) : List ℚ :=
  List.zipWith (fun a b => (a - b) * 255) (channelValues pred) (channelValues tgt)

/-- Mean absolute difference on the 0..255 scale. -/
def maeVal (pred tgt : Image) : ℚ :=
  ((imgDiffs pred tgt).map fun d => |d|).sum / (imgDiffs pred tgt).length

/-- Mean squared difference on the 0..255 scale (the radicand of the RMSE). -/
def mseVal (pred tgt : Image) : ℚ :=
  ((imgDiffs pred tgt).map fun d => d * d).sum / (imgDiffs pred tgt).length

/-- Root of the mean squared difference. -/
noncomputable def rmseVal (pred tgt : Image) : ℝ :=
  Real.sqrt ((mseVal pred tgt : ℚ) : ℝ)

/-- Embedding of mae_rmse (create_lut.py lines 96-100): d = (pred - tgt)*255,
mae = mean |d|, rmse = sqrt(mean d*d). -/
noncomputable def mae_rmse (pred tgt : Image) : ℚ × ℝ :=
  (maeVal pred tgt, rmseVal pred tgt)

/-- Embedding of center_crop_pair (create_lut.py lines 107-116, identical in
run.py lines 42-51): if the shapes differ, both images are cut down to their
common centered region of min height by min width. -/
def center_crop_pair (a b : Image) : Image × Image :=
  if a.length = b.length ∧ (a.headD []).length = (b.headD []).length then (a, b)
  else
    let h := min a.length b.length
    let w := min (a.headD []).length (b.headD []).length
    let ay := (a.length - h) / 2
    let ax := ((a.headD []).length - w) / 2
    let b_y := (b.length - h) / 2
    let bx := ((b.headD []).length - w) / 2
    (((a.drop ay).take h).map fun row => (row.drop ax).take w,
     ((b.drop b_y).take h).map fun row => (row.drop bx).take w)

/-- Embedding of mae_rmse from run.py lines 54-59: center-crop the pair to a
common shape first, then the same mean metrics. -/
noncomputable def mae_rmse_run (pred tgt : Image) : ℚ × ℝ :=
  mae_rmse (center_crop_pair pred tgt).1 (center_crop_pair pred tgt).2

/-- One channel of a pixel, numpy index order R, G, B. -/
def channelGet (p : Pix) (c : Fin 3) : ℚ :=
  if c = 0 then p.1 else if c = 1 then p.2.1 else p.2.2

/-- Feature matrix built by poly_features at the fit sites: row i holds the
monomial features of pixel i, columns indexed by exps. -/
def polyFeaturesM (x : List Pix) (exps : List (ℕ × ℕ × ℕ)) :
    Matrix (Fin x.length) (Fin exps.length) ℚ :=
  Matrix.of fun i j => monomial (x.getD i (0, 0, 0)) (exps.getD j (0, 0, 0))

/-- Regularizer of fit_ridge: the identity matrix with its (0,0) entry
zeroed, so the constant (bias) feature is never penalized. -/
def ridgeReg (p : ℕ) : Matrix (Fin p) (Fin p) ℚ :=
  Matrix.of fun i j => if i = j ∧ (i : ℕ) ≠ 0 then 1 else 0

/-- The normal-equations matrix phi^T phi + lam * reg of fit_ridge. -/
def normalMatrix (x : List Pix) (exps : List (ℕ × ℕ × ℕ)) (lam : ℚ) :
    Matrix (Fin exps.length) (Fin exps.length) ℚ :=
  (polyFeaturesM x exps).transpose * polyFeaturesM x exps + lam • ridgeReg exps.length

/-- Right-hand side phi^T y_c of the normal equations for output channel c. -/
def ridgeRhs (x y : List Pix) (exps : List (ℕ × ℕ × ℕ)) (c : Fin 3) :
    Fin exps.length → ℚ :=
  (polyFeaturesM x exps).transpose.mulVec fun i => channelGet (y.getD i (0, 0, 0)) c

/-- Embedding of fit_ridge (create_lut.py lines 63-79; the identical
computation appears inline in train_poly_map, run.py lines 111-131): solve
the regularized normal equations independently per channel with
np.linalg.solve, whose contract is to return the exact solution of a
nonsingular system (rendered by Cramer's rule) and to raise LinAlgError on a
singular one (rendered by none). -/
def fit_ridge (x y : List Pix) (exps : List (ℕ × ℕ × ℕ)) (lam : ℚ) :
    Option (Matrix (Fin exps.length) (Fin 3) ℚ) :=
  if (normalMatrix x exps lam).det = 0 then none
  else some (Matrix.of fun j c =>
    ((normalMatrix x exps lam).det)⁻¹
      * Matrix.cramer (normalMatrix x exps lam) (ridgeRhs x y exps c) j)

/-- Score tuple compared by the Model Selector: (mean validation RMSE, mean
validation MAE, feature count, lambda). -/
abbrev Score : Type := ℚ × ℚ × ℕ × ℚ

/-- Python tuple comparison on Score values: strict lexicographic less-than,
the meaning of the comparison score < best at create_lut.py line 261. -/
def scoreLt (s t : Score) : Prop :=
  s.1 < t.1 ∨ (s.1 = t.1 ∧ (s.2.1 < t.2.1 ∨ (s.2.1 = t.2.1 ∧
    (s.2.2.1 < t.2.2.1 ∨ (s.2.2.1 = t.2.2.1 ∧ s.2.2.2 < t.2.2.2)))))

instance scoreLt.instDecidable (s t : Score) : Decidable (scoreLt s t) := by
  unfold scoreLt
  infer_instance

/-- Candidate grid of the Model Selector (create_lut.py lines 238-240):
degrees 1..max_degree crossed with the lambda list, in iteration order. -/
def gridCandidates (max_degree : ℕ) (lambdas : List ℚ) : List (ℕ × ℚ) :=
  (List.range' 1 max_degree).flatMap fun d => lambdas.map fun l => (d, l)

/-- Score assembled for one candidate at create_lut.py line 255: validation
RMSE, validation MAE, feature count of the degree's basis, lambda.  The two
error components are parameters of the embedding: in the program they are
produced by fit_ridge, apply_poly and mae_rmse over the loaded validation
(or training) pixels. -/
def scoreOf (valRmse valMae : ℕ → ℚ → ℚ) (d : ℕ) (l : ℚ) : Score :=
  (valRmse d l, valMae d l, (build_exponents d).length, l)

/-- The running-best loop of main (create_lut.py lines 235-273): start from
None, walk the candidates in order, and replace the retained best exactly
when the new score is strictly smaller (score < best). -/
def selectLoop (score : ℕ → ℚ → Score) :
    Option ((ℕ × ℚ) × Score) → List (ℕ × ℚ) → Option ((ℕ × ℚ) × Score)
  | best, [] => best
  | best, c :: rest =>
    match best with
    | none => selectLoop score (some (c, score c.1 c.2)) rest
    | some (c0, s0) =>
        if scoreLt (score c.1 c.2) s0 then selectLoop score (some (c, score c.1 c.2)) rest
        else selectLoop score (some (c0, s0)) rest

/-- The Model Selector: run the loop over the full grid. -/
def selectBest (score : ℕ → ℚ → Score) (max_degree : ℕ) (lambdas : List ℚ) :
    Option ((ℕ × ℚ) × Score) :=
  selectLoop score none (gridCandidates max_degree lambdas)

/-- Character-level semantics of str.endswith: the suffix characters close
the stem's character list. -/
def strEndsWith (s suffix : String) : Bool := suffix.data.isSuffixOf s.data

/-- Character-level semantics of str.startswith. -/
def strStartsWith (s pre : String) : Bool := pre.data.isPrefixOf s.data

/-- Character-level semantics of the slice s[n:]. -/
def strDrop (s : String) (n : ℕ) : String := ⟨s.data.drop n⟩

/-- Character-level semantics of the slice s[:-n]. -/
def strDropRight (s : String) (n : ℕ) : String := ⟨s.data.take (s.data.length - n)⟩

/-- Character-level semantics of str.lower. -/
def strToLower (s : String) : String := ⟨s.data.map Char.toLower⟩

/-- Code-point lexicographic comparison of character lists, the semantics of
Python string comparison. -/
def charListLt : List Char → List Char → Bool
  | [], [] => false
  | [], _ :: _ => true
  | _ :: _, [] => false
  | a :: as, b :: bs => if a < b then true else if b < a then false else charListLt as bs

/-- Strict string comparison. -/
def strLt (s t : String) : Bool := charListLt s.data t.data

/-- Non-strict string comparison. -/
def strLe (s t : String) : Bool := !(strLt t s)

/-- A file of the dataset directory, as a stem (name without extension) and
extension (with the leading dot): the pieces of a Path that parse_dataset
inspects.  Directory entries that are not files are outside the model. -/
structure DFile where
  stem : String
  ext : String
deriving DecidableEq

/-- Full file name, the sort key of the directory iteration order. -/
def fileName (f : DFile) : String := f.stem ++ f.ext

/-- IMAGE_EXTS of run.py line 22. -/
def IMAGE_EXTS : List String := [".jpg", ".jpeg", ".png", ".webp"]

/-- The extension filter: path.suffix.lower() in IMAGE_EXTS. -/
def isImageFile (f : DFile) : Bool := IMAGE_EXTS.contains (strToLower f.ext)

/-- Split label of a stem: a val_ name marks the validation split. -/
def splitOf (stem : String) : String :=
  if strStartsWith stem "val_" then "val" else "train"

/-- Stem with the val_ marker stripped when present. -/
def keyStemOf (stem : String) : String :=
  if strStartsWith stem "val_" then strDrop stem 4 else stem

/-- Classification of a file as a *_in input image, following the branch
order of parse_dataset: image extension, not *_pred, ends in _in. -/
def isInFile (f : DFile) : Bool :=
  isImageFile f && !strEndsWith (keyStemOf f.stem) "_pred"
    && strEndsWith (keyStemOf f.stem) "_in"

/-- Classification of a file as a *_out reference image: image extension,
not *_pred, not *_in, ends in _out. -/
def isOutFile (f : DFile) : Bool :=
  isImageFile f && !strEndsWith (keyStemOf f.stem) "_pred"
    && !strEndsWith (keyStemOf f.stem) "_in" && strEndsWith (keyStemOf f.stem) "_out"

/-- Dict key (split, key) under which a *_in file is registered. -/
def inFileKey (f : DFile) : String × String :=
  (splitOf f.stem, strDropRight (keyStemOf f.stem) 3)

/-- Dict key (split, key) under which a *_out file is registered. -/
def outFileKey (f : DFile) : String × String :=
  (splitOf f.stem, strDropRight (keyStemOf f.stem) 4)

/-- Python dict assignment d[k] = v on an association list preserving
insertion order: overwrite in place when the key exists, append otherwise. -/
def dictInsert (d : List ((String × String) × DFile)) (k : String × String)
    (v : DFile) : List ((String × String) × DFile) :=
  if d.any fun e => decide (e.1 = k) then d.map fun e => if e.1 = k then (k, v) else e
  else d ++ [(k, v)]

/-- Python dict lookup d.get(k). -/
def dictLookup (d : List ((String × String) × DFile)) (k : String × String) :
    Option DFile :=
  (d.find? fun e => decide (e.1 = k)).map fun e => e.2

/-- Presence of a key in an association list. -/
def keyMem (d : List ((String × String) × DFile)) (k : String × String) : Prop :=
  ∃ e ∈ d, e.1 = k

/-- A discovered sample (run.py lines 25-30). -/
structure Sample where
  key : String
  split : String
  in_path : DFile
  out_path : Option DFile
deriving DecidableEq

/-- One step of the classification loop of parse_dataset (run.py lines
67-87) on the accumulator (ins, outs, ignored). -/
def parseStep
    (acc : List ((String × String) × DFile) × List ((String × String) × DFile) × List DFile)
    (f : DFile) :
    List ((String × String) × DFile) × List ((String × String) × DFile) × List DFile :=
  if !isImageFile f then acc
  else if strEndsWith (keyStemOf f.stem) "_pred" then acc
  else if strEndsWith (keyStemOf f.stem) "_in" then
    (dictInsert acc.1 (inFileKey f) f, acc.2.1, acc.2.2)
  else if strEndsWith (keyStemOf f.stem) "_out" then
    (acc.1, dictInsert acc.2.1 (outFileKey f) f, acc.2.2)
  else (acc.1, acc.2.1, acc.2.2 ++ [f])

/-- Lexicographic order on (split, key) pairs, the sort key of
sorted(ins.items()). -/
def pairLe (a b : String × String) : Bool :=
  strLt a.1 b.1 || (a.1 == b.1 && strLe a.2 b.2)

/-- Embedding of parse_dataset (run.py lines 62-92): iterate the directory in
sorted name order, classify files into input images, output references and
ignored files, then produce one Sample per ins entry in sorted key order,
pairing through outs.get (None when no *_out with the same (split, key)
exists); raise FileNotFoundError (the error case) when there are no inputs;
also return the ignored files and the standalone out references.  Python's
stable sorted() is rendered by insertion sort; all sort keys here are
distinct (directory names and dict keys are unique), so the orders agree. -/
def parseAcc (files : List DFile) :
    List ((String × String) × DFile) × List ((String × String) × DFile) × List DFile :=
  (List.insertionSort (fun a b => strLe (fileName a) (fileName b) = true) files).foldl parseStep ([], [], [])

/-- The sample list assembled from the ins dict in sorted key order, pairing
through outs.get. -/
def parseSamples (files : List DFile) : List Sample :=
  (List.insertionSort (fun a b => pairLe a.1 b.1 = true) (parseAcc files).1).map fun e =>
    { key := e.1.2, split := e.1.1, in_path := e.2,
      out_path := dictLookup (parseAcc files).2.1 e.1 }

def parse_dataset (files : List DFile) :
    Except String (List Sample × List DFile × List DFile) :=
  if (parseSamples files).isEmpty then Except.error "No *_in images found"
  else Except.ok (parseSamples files, (parseAcc files).2.2,
    ((List.insertionSort (fun a b => pairLe a.1 b.1 = true) (parseAcc files).2.1).filter fun e =>
      !((parseAcc files).1.any fun e2 => decide (e2.1 = e.1))).map fun e => e.2)

/-- Report entry produced for each sample by the main loop (run.py lines
270-305). -/
structure ReportItem where
  key : String
  split : String
  predName : String
  metrics : Option (ℚ × ℝ)

/-- Per-sample portion of main's loop (run.py lines 270-305), parameterized
by the prediction image of each sample (the selected algorithm applied to
the loaded input) and by the loader of reference images: a prediction file
name is produced for every sample, and mae/rmse are recorded exactly for the
samples with a paired output. -/
noncomputable def mainPerImage (predImg : Sample → Image) (loadImg : DFile → Image)
    (samples : List Sample) : List ReportItem :=
  samples.map fun s =>
    { key := s.key
      split := s.split
      predName := (if s.split = "val" then "val_" else "") ++ s.key ++ "_pred.jpg"
      metrics := s.out_path.map fun o => mae_rmse_run (predImg s) (loadImg o) }

theorem clip01_mem (x : ℚ) : in01 (clip01 x) := by
  constructor
  · exact le_max_left 0 (min 1 x)
  · exact max_le (by norm_num) (min_le_left 1 x)

theorem clipPix_mem (p : Pix) :
    in01 (clipPix p).1 ∧ in01 (clipPix p).2.1 ∧ in01 (clipPix p).2.2 :=
  ⟨clip01_mem _, clip01_mem _, clip01_mem _⟩

theorem clip01_of_in01 {x : ℚ} (h : in01 x) : clip01 x = x := by
  unfold clip01
  rw [min_eq_right h.2, max_eq_right h.1]

theorem clip01_idem (x : ℚ) : clip01 (clip01 x) = clip01 x :=
  clip01_of_in01 (clip01_mem x)

theorem floor_le_pyRound (q : ℚ) : ⌊q⌋ ≤ pyRound q := by
  unfold pyRound
  split_ifs <;> omega

theorem pyRound_le_floor_add_one (q : ℚ) : pyRound q ≤ ⌊q⌋ + 1 := by
  unfold pyRound
  split_ifs <;> omega

theorem innerLen_le_side {side : ℕ} (h : 1 ≤ side) (frac : ℚ) (hfrac : frac ≤ 9/10) :
    innerLen side frac ≤ side := by
  unfold innerLen
  have h1 : ⌊(side : ℚ) * frac⌋ + 1 ≤ (side : ℤ) := by
    have hlt : (side : ℚ) * frac < side := by
      calc (side : ℚ) * frac ≤ side * (9/10) := by
            apply mul_le_mul_of_nonneg_left hfrac
            exact_mod_cast Nat.zero_le side
        _ < side := by
            have : (0 : ℚ) < side := by exact_mod_cast h
            linarith
    have := Int.floor_le_floor hlt.le
    have hfl : ⌊(side : ℚ) * frac⌋ < (side : ℤ) := by
      have := Int.floor_lt.mpr (by exact_mod_cast hlt)
      simpa using this
    omega
  have h2 : pyRound ((side : ℚ) * frac) ≤ (side : ℤ) :=
    le_trans (pyRound_le_floor_add_one _) h1
  have h3 : max 1 (pyRound ((side : ℚ) * frac)) ≤ (side : ℤ) := by
    apply max_le _ h2
    exact_mod_cast h
  omega

theorem one_le_pyRound_nine_tenths {side : ℕ} (h : 1 ≤ side) :
    1 ≤ pyRound ((side : ℚ) * (9/10)) := by
  have h0 : (0 : ℤ) ≤ ⌊(side : ℚ) * (9/10)⌋ := by
    apply Int.floor_nonneg.mpr
    positivity
  rcases Nat.lt_or_ge side 2 with hs | hs
  · interval_cases side
    unfold pyRound
    norm_num
  · have : (9/5 : ℚ) ≤ (side : ℚ) * (9/10) := by
      have : (2 : ℚ) ≤ side := by exact_mod_cast hs
      linarith
    have h1 : (1 : ℤ) ≤ ⌊(side : ℚ) * (9/10)⌋ := by
      have := Int.le_floor.mpr (show ((1 : ℤ) : ℚ) ≤ (side : ℚ) * (9/10) by push_cast; linarith)
      exact this
    exact le_trans h1 (floor_le_pyRound _)

/-- C2 counterexample: on a 10-row image, crop_inner_region with the default
fraction retains 9 rows (the centered 90 percent region, rounded), whereas
excluding a border of 10 percent on each side would retain 10 - 2*1 = 8 rows;
the two rules that the claim identifies as the same disagree. -/
theorem C2_counterexample :
    (crop_inner_region [[((0:ℚ), (0:ℚ), (0:ℚ))], [((0:ℚ), (0:ℚ), (0:ℚ))],
      [((0:ℚ), (0:ℚ), (0:ℚ))], [((0:ℚ), (0:ℚ), (0:ℚ))], [((0:ℚ), (0:ℚ), (0:ℚ))],
      [((0:ℚ), (0:ℚ), (0:ℚ))], [((0:ℚ), (0:ℚ), (0:ℚ))], [((0:ℚ), (0:ℚ), (0:ℚ))],
      [((0:ℚ), (0:ℚ), (0:ℚ))], [((0:ℚ), (0:ℚ), (0:ℚ))]] (9/10)).length = 9 ∧
    (9 : ℕ) ≠ 10 - 2 * (10 / 10) := by
  have h9 : innerLen 10 (9/10) = 9 := by
    unfold innerLen pyRound
    norm_num
    rfl
  have h1 : innerLen 1 (9/10) = 1 := by
    unfold innerLen pyRound
    norm_num
  constructor
  · unfold crop_inner_region
    simp only [List.length_cons, List.length_nil, List.headD_cons, List.length_map,
      List.length_take, List.length_drop]
    norm_num [h9, h1]
  · omega

/-- C2 (amended): the border-exclusion rule retains the centered region of
round(0.9 * side) rows and columns, i.e. it excludes a border of about 5
percent (not 10 percent) on each side: the total excluded border is
side - round(0.9 * side), split between the two sides as evenly as integer
arithmetic allows. -/
theorem C2_crop_border (img : Image) (h1 : 1 ≤ img.length) :
    (crop_inner_region img (9/10)).length = innerLen img.length (9/10) ∧
    innerLen img.length (9/10) = (pyRound ((img.length : ℚ) * (9/10))).toNat ∧
    (img.length - innerLen img.length (9/10)) - (img.length - innerLen img.length (9/10)) / 2
      ≤ (img.length - innerLen img.length (9/10)) / 2 + 1 ∧
    (∀ i, i < innerLen img.length (9/10) →
      (crop_inner_region img (9/10))[i]? =
        (img[(img.length - innerLen img.length (9/10)) / 2 + i]?).map fun row =>
          (row.drop (((img.headD []).length - innerLen (img.headD []).length (9/10)) / 2)).take
            (innerLen (img.headD []).length (9/10))) ∧
    (∀ w, 1 ≤ w → (∀ row ∈ img, row.length = w) →
      ∀ row ∈ crop_inner_region img (9/10), row.length = innerLen w (9/10)) := by
  have hle : innerLen img.length (9/10) ≤ img.length := innerLen_le_side h1 _ le_rfl
  have hy0 : (img.length - innerLen img.length (9/10)) / 2 + innerLen img.length (9/10)
      ≤ img.length := by
    have := Nat.div_le_self (img.length - innerLen img.length (9/10)) 2
    omega
  refine ⟨?_, ?_, ?_, ?_, ?_⟩
  · unfold crop_inner_region
    simp only [List.length_map, List.length_take, List.length_drop]
    omega
  · unfold innerLen
    have := one_le_pyRound_nine_tenths h1
    omega
  · omega
  · intro i hi
    unfold crop_inner_region
    simp only [List.getElem?_map]
    rw [List.getElem?_take_of_lt hi, List.getElem?_drop]
  · intro w hw hrect row hrow
    have hhead : (img.headD []).length = w := by
      cases img with
      | nil => simp at h1
      | cons r rest => exact hrect r (by simp)
    unfold crop_inner_region at hrow
    simp only [hhead] at hrow
    rcases List.mem_map.mp hrow with ⟨row0, hrow0, rfl⟩
    have hrow0' : row0 ∈ img :=
      ((List.take_sublist _ _).trans (List.drop_sublist _ _)).subset hrow0
    have hlen : row0.length = w := hrect row0 hrow0'
    have hwle : innerLen w (9/10) ≤ w := innerLen_le_side hw _ le_rfl
    have hx0 : (w - innerLen w (9/10)) / 2 + innerLen w (9/10) ≤ w := by
      have := Nat.div_le_self (w - innerLen w (9/10)) 2
      omega
    simp only [List.length_take, List.length_drop, hlen]
    omega

/-- C2 witness: instantiation of the amended crop theorem on a concrete
3-by-3 image. -/
theorem C2_crop_border_witness :
    (crop_inner_region (List.replicate 3 (List.replicate 3 ((0:ℚ), (0:ℚ), (0:ℚ)))) (9/10)).length
      = innerLen 3 (9/10) ∧
    ∀ row ∈ crop_inner_region (List.replicate 3 (List.replicate 3 ((0:ℚ), (0:ℚ), (0:ℚ)))) (9/10),
      row.length = innerLen 3 (9/10) := by
  constructor
  · exact (C2_crop_border _ (by decide)).1
  · exact (C2_crop_border _ (by decide)).2.2.2.2 3 (by decide) (by decide)

/-- C8: for every reference percentile statistics, the fitted output luma
anchors of the Procedural Grade Model lie in disjoint ordered bands:
shadow in [0.02, 0.20]; midtone at least shadow + 0.05 and at most 0.48;
highlight at least midtone + 0.08 and at most 0.86. -/
theorem C8_anchor_bands (refP10 refMid refP90 : ℚ) :
    2/100 ≤ (targetAnchors refP10 refMid refP90).1 ∧
    (targetAnchors refP10 refMid refP90).1 ≤ 20/100 ∧
    (targetAnchors refP10 refMid refP90).1 + 5/100 ≤ (targetAnchors refP10 refMid refP90).2.1 ∧
    (targetAnchors refP10 refMid refP90).2.1 ≤ 48/100 ∧
    (targetAnchors refP10 refMid refP90).2.1 + 8/100 ≤ (targetAnchors refP10 refMid refP90).2.2 ∧
    (targetAnchors refP10 refMid refP90).2.2 ≤ 86/100 := by
  unfold targetAnchors
  simp only
  have hs1 : (2/100 : ℚ) ≤ max (2/100) (min (20/100) (refP10 + 1/100)) := le_max_left _ _
  have hs2 : max (2/100 : ℚ) (min (20/100) (refP10 + 1/100)) ≤ 20/100 :=
    max_le (by norm_num) (min_le_left _ _)
  refine ⟨hs1, hs2, le_max_left _ _, ?_, le_max_left _ _, ?_⟩
  · exact max_le (by linarith) (min_le_left _ _)
  · have hm : max (max (2/100 : ℚ) (min (20/100) (refP10 + 1/100)) + 5/100)
        (min (48/100) (refMid + 2/100)) ≤ 48/100 :=
      max_le (by linarith) (min_le_left _ _)
    exact max_le (by linarith) (min_le_left _ _)

theorem mem_degBlock {x : ℕ × ℕ × ℕ} {deg : ℕ} :
    x ∈ degBlock deg ↔ x.1 + x.2.1 + x.2.2 = deg := by
  obtain ⟨a, b, c⟩ := x
  simp only [degBlock, List.mem_flatMap, List.mem_reverse, List.mem_range, List.mem_map,
    Prod.mk.injEq]
  constructor
  · rintro ⟨a', ha', b', hb', rfl, rfl, rfl⟩
    omega
  · rintro hsum
    exact ⟨a, by omega, b, by omega, rfl, rfl, by omega⟩

theorem list_sum_range_map (f : ℕ → ℕ) (n : ℕ) :
    ((List.range n).map f).sum = ∑ i ∈ Finset.range n, f i := by
  induction n with
  | zero => simp
  | succ m ih => simp [List.range_succ, Finset.sum_range_succ, ih]

theorem length_degBlock (deg : ℕ) : (degBlock deg).length = (deg + 2).choose 2 := by
  unfold degBlock
  show (List.flatten (List.map _ _)).length = _
  rw [List.length_flatten, List.map_map, List.map_reverse, List.sum_reverse]
  have h1 : ∀ a : ℕ, ((fun l => List.length l) ∘ fun a =>
      (List.range (deg - a + 1)).reverse.map fun b => (a, b, deg - a - b)) a
        = deg - a + 1 := by
    intro a
    simp
  rw [List.map_congr_left fun a _ => h1 a, list_sum_range_map]
  have h2 : ∑ a ∈ Finset.range (deg + 1), (deg - a + 1)
      = ∑ a ∈ Finset.range (deg + 1), (a + 1) := by
    have := Finset.sum_range_reflect (fun a => a + 1) (deg + 1)
    rw [← this]
    apply Finset.sum_congr rfl
    intro a ha
    rw [Finset.mem_range] at ha
    omega
  rw [h2]
  have h3 : ∑ a ∈ Finset.range (deg + 2), a = ∑ a ∈ Finset.range (deg + 1), (a + 1) := by
    rw [Finset.sum_range_succ' (fun a => a) (deg + 1)]
    simp
  have h4 := Finset.sum_range_id_mul_two (deg + 2)
  have h5 := Nat.choose_two_right (deg + 2)
  omega

theorem length_build_exponents (D : ℕ) : (build_exponents D).length = (D + 3).choose 3 := by
  induction D with
  | zero => rfl
  | succ n ih =>
    unfold build_exponents
    rw [List.range_succ, List.flatMap_append]
    unfold build_exponents at ih
    rw [List.length_append, ih]
    simp only [List.flatMap_cons, List.flatMap_nil, List.append_nil, length_degBlock]
    have h1 : (n + 1 + 3).choose 3 = (n + 3).choose 2 + (n + 3).choose 3 := by
      have h := Nat.choose_succ_succ' (n + 3) 2
      norm_num at h
      have he : (n + 3 + 1).choose 3 = (n + 1 + 3).choose 3 := by
        norm_num
      omega
    have h2 : (n + 1 + 2).choose 2 = (n + 3).choose 2 := by
      norm_num
    omega

theorem mem_build_exponents {x : ℕ × ℕ × ℕ} {D : ℕ} :
    x ∈ build_exponents D ↔ x.1 + x.2.1 + x.2.2 ≤ D := by
  unfold build_exponents
  rw [List.mem_flatMap]
  constructor
  · rintro ⟨deg, hdeg, hx⟩
    rw [List.mem_range] at hdeg
    rw [mem_degBlock] at hx
    omega
  · intro h
    exact ⟨x.1 + x.2.1 + x.2.2, List.mem_range.mpr (by omega), mem_degBlock.mpr rfl⟩

theorem pairwise_degBlock (deg : ℕ) : (degBlock deg).Pairwise expBefore := by
  unfold degBlock
  rw [List.pairwise_flatMap]
  constructor
  · intro a _
    rw [List.pairwise_map, List.pairwise_reverse]
    apply List.Pairwise.imp_of_mem ?_ (List.pairwise_lt_range _)
    intro b b' hb hb' hlt
    rw [List.mem_range] at hb hb'
    unfold expBefore
    dsimp only
    omega
  · rw [List.pairwise_reverse]
    apply List.Pairwise.imp_of_mem ?_ (List.pairwise_lt_range _)
    intro a a' ha ha' hlt x hx y hy
    rw [List.mem_range] at ha ha'
    rw [List.mem_map] at hx hy
    obtain ⟨b, hb, rfl⟩ := hx
    obtain ⟨b', hb', rfl⟩ := hy
    rw [List.mem_reverse, List.mem_range] at hb hb'
    unfold expBefore
    dsimp only
    omega

theorem pairwise_build_exponents (D : ℕ) : (build_exponents D).Pairwise expBefore := by
  unfold build_exponents
  rw [List.pairwise_flatMap]
  refine ⟨fun deg _ => pairwise_degBlock deg, ?_⟩
  apply List.Pairwise.imp_of_mem ?_ (List.pairwise_lt_range _)
  intro d d' _ _ hlt x hx y hy
  rw [mem_degBlock] at hx hy
  unfold expBefore
  omega

theorem head_build_exponents (D : ℕ) : (build_exponents D).head? = some (0, 0, 0) := by
  unfold build_exponents
  rw [List.range_succ_eq_map, List.flatMap_cons]
  have h0 : degBlock 0 = [(0, 0, 0)] := rfl
  rw [h0]
  rfl

/-- C3: for every max_degree D, the feature basis has exactly choose (D+3) 3
entries; it consists exactly of the triples of total degree at most D; its
first entry is (0,0,0); it contains (D,0,0); it is strictly ordered by total
degree ascending, then first exponent descending, then second exponent
descending; and the two implementations (create_lut.py and run.py) produce
the identical sequence. -/
theorem C3_feature_basis (D : ℕ) :
    (build_exponents D).length = (D + 3).choose 3 ∧
    (∀ x : ℕ × ℕ × ℕ, x ∈ build_exponents D ↔ x.1 + x.2.1 + x.2.2 ≤ D) ∧
    (build_exponents D).head? = some (0, 0, 0) ∧
    (D, 0, 0) ∈ build_exponents D ∧
    (build_exponents D).Pairwise expBefore ∧
    build_exponents_run D = build_exponents D :=
  ⟨length_build_exponents D, fun _ => mem_build_exponents,
    head_build_exponents D, mem_build_exponents.mpr (by simp),
    pairwise_build_exponents D, rfl⟩

theorem clip01_zero : clip01 0 = 0 := by
  unfold clip01
  rw [min_eq_right zero_le_one, max_self]

theorem clip01_one : clip01 1 = 1 := by
  unfold clip01
  rw [min_self, max_eq_right zero_le_one]

theorem clipPix_of_in01 {p : Pix} (h : in01 p.1 ∧ in01 p.2.1 ∧ in01 p.2.2) :
    clipPix p = p := by
  obtain ⟨a, b, c⟩ := p
  unfold clipPix
  rw [clip01_of_in01 h.1, clip01_of_in01 h.2.1, clip01_of_in01 h.2.2]

theorem gradedPix_mem (coefs : List Pix) (exps : List (ℕ × ℕ × ℕ)) (p : Pix) :
    in01 (gradedPix coefs exps p).1 ∧ in01 (gradedPix coefs exps p).2.1 ∧
      in01 (gradedPix coefs exps p).2.2 :=
  ⟨clip01_mem _, clip01_mem _, clip01_mem _⟩

theorem blendPix_zero (p g : Pix) : blendPix p g 0 = p := by
  obtain ⟨a, b, c⟩ := p
  unfold blendPix
  norm_num

theorem blendPix_one (p g : Pix) : blendPix p g 1 = g := by
  obtain ⟨a, b, c⟩ := g
  unfold blendPix
  norm_num

/-- C6: on an image with values already in [0,1], applying the Polynomial
Color Model with intensity 0 returns the input unchanged (exactly, in the
rational model), and with intensity 1 returns exactly the clipped graded
prediction clip(phi(image) . coefs, 0, 1). -/
theorem C6_intensity_endpoints (img : Image) (coefs : List Pix)
    (exps : List (ℕ × ℕ × ℕ)) (h : imageIn01 img) :
    apply_poly img coefs exps 0 = img ∧
    apply_poly img coefs exps 1 = gradedImage img coefs exps := by
  constructor
  · unfold apply_poly
    have hrow : ∀ row ∈ img,
        (row.map fun p => clipPix (blendPix p (gradedPix coefs exps p) (clip01 0))) = row := by
      intro row hrow
      have hp : ∀ p ∈ row,
          clipPix (blendPix p (gradedPix coefs exps p) (clip01 0)) = p := by
        intro p hp
        rw [clip01_zero, blendPix_zero]
        exact clipPix_of_in01 (h row hrow p hp)
      rw [List.map_congr_left hp, List.map_id']
    rw [List.map_congr_left hrow, List.map_id']
  · unfold apply_poly gradedImage
    apply List.map_congr_left
    intro row _
    apply List.map_congr_left
    intro p _
    rw [clip01_one, blendPix_one]
    exact clipPix_of_in01 (gradedPix_mem coefs exps p)

/-- C6 witness: concrete instantiation on a one-pixel image with a degree-one
basis. -/
theorem C6_intensity_endpoints_witness :
    apply_poly [[((1/2 : ℚ), (1/3 : ℚ), (1/4 : ℚ))]] [(2, 0, 1)] [(1, 0, 0)] 0
        = [[((1/2 : ℚ), (1/3 : ℚ), (1/4 : ℚ))]] ∧
    apply_poly [[((1/2 : ℚ), (1/3 : ℚ), (1/4 : ℚ))]] [(2, 0, 1)] [(1, 0, 0)] 1
        = gradedImage [[((1/2 : ℚ), (1/3 : ℚ), (1/4 : ℚ))]] [(2, 0, 1)] [(1, 0, 0)] :=
  C6_intensity_endpoints _ _ _ (by
    intro row hrow p hp
    simp only [List.mem_singleton] at hrow
    subst hrow
    simp only [List.mem_singleton] at hp
    subst hp
    norm_num [in01])

theorem sameShape_nestedMap (img : Image) (f : Pix → Pix) :
    sameShape (img.map fun row => row.map f) img := by
  unfold sameShape
  rw [List.map_map]
  apply List.map_congr_left
  intro row _
  simp

theorem imageIn01_nestedMap (img : Image) (f : Pix → Pix)
    (hf : ∀ p, in01 (f p).1 ∧ in01 (f p).2.1 ∧ in01 (f p).2.2) :
    imageIn01 (img.map fun row => row.map f) := by
  intro row hrow p hp
  rcases List.mem_map.mp hrow with ⟨row0, _, rfl⟩
  rcases List.mem_map.mp hp with ⟨p0, _, rfl⟩
  exact hf p0

theorem sameShape_nestedMapIdx (img : Image) (f : ℕ → ℕ → Pix → Pix) :
    sameShape (img.mapIdx fun y row => row.mapIdx fun x p => f y x p) img := by
  unfold sameShape
  apply List.ext_getElem
  · simp
  · intro i h1 h2
    simp

theorem imageIn01_nestedMapIdx (img : Image) (f : ℕ → ℕ → Pix → Pix)
    (hf : ∀ y x p, in01 (f y x p).1 ∧ in01 (f y x p).2.1 ∧ in01 (f y x p).2.2) :
    imageIn01 (img.mapIdx fun y row => row.mapIdx fun x p => f y x p) := by
  intro row hrow p hp
  obtain ⟨y, hy, hrow_eq⟩ := List.mem_iff_getElem.mp hrow
  rw [List.getElem_mapIdx] at hrow_eq
  subst hrow_eq
  obtain ⟨x, hx, hp_eq⟩ := List.mem_iff_getElem.mp hp
  rw [List.getElem_mapIdx] at hp_eq
  subst hp_eq
  exact hf y x _

/-- C5: each apply operation — the polynomial apply, the CDF-match apply, and
the procedural grade predict — returns an image of exactly the input image's
shape, all of whose channel values lie in [0,1], for every input image, model
parameters and intensity. -/
theorem C5_apply_range_shape (img : Image) (coefs : List Pix)
    (exps : List (ℕ × ℕ × ℕ)) (t : ℚ) (lutR lutG lutB : List ℚ)
    (sinq : ℚ → ℚ) (m : DAModel) (sample : List (String × String)) :
    (sameShape (apply_poly img coefs exps t) img ∧
      imageIn01 (apply_poly img coefs exps t)) ∧
    (sameShape (apply_cdf_match img lutR lutG lutB t) img ∧
      imageIn01 (apply_cdf_match img lutR lutG lutB t)) ∧
    (sameShape (predict sinq img m t sample) img ∧
      imageIn01 (predict sinq img m t sample)) := by
  refine ⟨⟨sameShape_nestedMap img _, imageIn01_nestedMap img _ fun p => clipPix_mem _⟩,
    ⟨sameShape_nestedMap img _, imageIn01_nestedMap img _ fun p => clipPix_mem _⟩, ?_, ?_⟩
  · exact sameShape_nestedMapIdx img _
  · exact imageIn01_nestedMapIdx img _ fun y x p => clipPix_mem _

theorem coordHash_value (sinq : ℚ → ℚ) (h w y x : ℕ) (hy : y < h) (hx : x < w) :
    ((coordHash sinq h w).getD y []).getD x 0 =
      Int.fract (sinq ((x : ℚ) * (129898/10000) + (y : ℚ) * (78233/1000))
        * (437585453/10000)) := by
  unfold coordHash
  simp only [List.getD_eq_getElem?_getD, List.getElem?_map, List.getElem?_range hy,
    List.getElem?_range hx, Option.map_some', Option.getD_some]

/-- C9: the grain noise is a pure deterministic function of the pixel
coordinates.  The value of the coordinate hash at in-bounds coordinates
(x, y) is always frac(sin(x * 12.9898 + y * 78.233) * 43758.5453); any two
evaluations of the hash grid coincide; predict does not depend on its sample
argument; and predict applied to equal inputs, models and intensities yields
identical outputs.  All of this holds for an arbitrary sine function. -/
theorem C9_grain_deterministic (sinq : ℚ → ℚ) (h w y x : ℕ) (hy : y < h) (hx : x < w) :
    ((coordHash sinq h w).getD y []).getD x 0 =
      Int.fract (sinq ((x : ℚ) * (129898/10000) + (y : ℚ) * (78233/1000))
        * (437585453/10000)) ∧
    coordHash sinq h w = coordHash sinq h w ∧
    (∀ (img : Image) (m : DAModel) (t : ℚ) (s1 s2 : List (String × String)),
      predict sinq img m t s1 = predict sinq img m t s2) ∧
    (∀ (img1 img2 : Image) (m1 m2 : DAModel) (t1 t2 : ℚ) (s : List (String × String)),
      img1 = img2 → m1 = m2 → t1 = t2 →
      predict sinq img1 m1 t1 s = predict sinq img2 m2 t2 s) := by
  refine ⟨coordHash_value sinq h w y x hy hx, rfl, fun img m t s1 s2 => rfl, ?_⟩
  intro img1 img2 m1 m2 t1 t2 s h1 h2 h3
  subst h1
  subst h2
  subst h3
  rfl

/-- C9 witness: the hash value at coordinates (2, 1) of a 2-by-3 grid, with
the identity standing in for the sine parameter. -/
theorem C9_grain_deterministic_witness :
    ((coordHash (fun q => q) 2 3).getD 1 []).getD 2 0 =
      Int.fract (((2 : ℚ) * (129898/10000) + (1 : ℚ) * (78233/1000))
        * (437585453/10000)) :=
  (C9_grain_deterministic (fun q => q) 2 3 1 2 (by decide) (by decide)).1

theorem list_map_sum_eq_range_sum (l : List ℚ) (f : ℚ → ℚ) :
    (l.map f).sum = ∑ i ∈ Finset.range l.length, f (l.getD i 0) := by
  induction l with
  | nil => simp
  | cons a t ih =>
    rw [List.map_cons, List.sum_cons, ih, List.length_cons,
      Finset.sum_range_succ' fun i => f ((a :: t).getD i 0)]
    simp only [List.getD_cons_succ, List.getD_cons_zero]
    rw [add_comm]

theorem list_abs_sum_sq_le (d : List ℚ) :
    ((d.map fun v => |v|).sum) ^ 2 ≤ d.length * ((d.map fun v => v * v).sum) := by
  rw [list_map_sum_eq_range_sum, list_map_sum_eq_range_sum]
  have h := Finset.sum_mul_sq_le_sq_mul_sq (Finset.range d.length)
    (fun i => |d.getD i 0|) fun _ => 1
  simp only [mul_one, one_pow, Finset.sum_const, Finset.card_range, nsmul_eq_mul] at h
  calc (∑ i ∈ Finset.range d.length, |d.getD i 0|) ^ 2
      ≤ (∑ i ∈ Finset.range d.length, |d.getD i 0| ^ 2) * d.length := h
    _ = d.length * ∑ i ∈ Finset.range d.length, d.getD i 0 * d.getD i 0 := by
        rw [mul_comm]
        congr 1
        apply Finset.sum_congr rfl
        intro i _
        rw [sq_abs, sq]

theorem maeVal_nonneg (pred tgt : Image) : 0 ≤ maeVal pred tgt := by
  unfold maeVal
  apply div_nonneg _ (by positivity)
  apply List.sum_nonneg
  intro x hx
  rcases List.mem_map.mp hx with ⟨v, _, rfl⟩
  exact abs_nonneg v

theorem mseVal_nonneg (pred tgt : Image) : 0 ≤ mseVal pred tgt := by
  unfold mseVal
  apply div_nonneg _ (by positivity)
  apply List.sum_nonneg
  intro x hx
  rcases List.mem_map.mp hx with ⟨v, _, rfl⟩
  exact mul_self_nonneg v

theorem maeVal_sq_le_mseVal (pred tgt : Image) :
    maeVal pred tgt ^ 2 ≤ mseVal pred tgt := by
  unfold maeVal mseVal
  rcases Nat.eq_zero_or_pos (imgDiffs pred tgt).length with h0 | hpos
  · rw [List.length_eq_zero.mp h0]
    norm_num
  · have hn : (0:ℚ) < (imgDiffs pred tgt).length := by exact_mod_cast hpos
    rw [div_pow, div_le_div_iff₀ (by positivity) hn]
    have h := list_abs_sum_sq_le (imgDiffs pred tgt)
    have h2 : ((imgDiffs pred tgt).map fun v => |v|).sum ^ 2 * (imgDiffs pred tgt).length
        ≤ ((imgDiffs pred tgt).length * ((imgDiffs pred tgt).map fun v => v * v).sum)
          * (imgDiffs pred tgt).length :=
      mul_le_mul_of_nonneg_right h (by positivity)
    calc ((imgDiffs pred tgt).map fun v => |v|).sum ^ 2 * (imgDiffs pred tgt).length
        ≤ ((imgDiffs pred tgt).length * ((imgDiffs pred tgt).map fun v => v * v).sum)
          * (imgDiffs pred tgt).length := h2
      _ = ((imgDiffs pred tgt).map fun v => v * v).sum * ((imgDiffs pred tgt).length ^ 2) := by
          ring

/-- C7: the MAE and RMSE of an image against itself are exactly 0, and for
every pair of equal-shaped images the RMSE returned by the Metrics Engine is
at least the MAE. -/
theorem C7_metrics (img pred tgt : Image) :
    (channelValues img ≠ [] → (mae_rmse img img).1 = 0 ∧ (mae_rmse img img).2 = 0) ∧
    (sameShape pred tgt → ((mae_rmse pred tgt).1 : ℝ) ≤ (mae_rmse pred tgt).2) := by
  have hz : ∀ v ∈ imgDiffs img img, v = 0 := by
    unfold imgDiffs
    rw [List.zipWith_same]
    intro v hv
    rcases List.mem_map.mp hv with ⟨a, _, rfl⟩
    ring
  constructor
  · intro _
    have hmae : maeVal img img = 0 := by
      unfold maeVal
      have hs : (((imgDiffs img img).map fun d => |d|).sum) = 0 := by
        apply List.sum_eq_zero
        intro x hx
        rcases List.mem_map.mp hx with ⟨v, hv, rfl⟩
        rw [hz v hv, abs_zero]
      rw [hs, zero_div]
    have hmse : mseVal img img = 0 := by
      unfold mseVal
      have hs : (((imgDiffs img img).map fun d => d * d).sum) = 0 := by
        apply List.sum_eq_zero
        intro x hx
        rcases List.mem_map.mp hx with ⟨v, hv, rfl⟩
        rw [hz v hv, mul_zero]
      rw [hs, zero_div]
    refine ⟨hmae, ?_⟩
    show rmseVal img img = 0
    unfold rmseVal
    rw [hmse]
    simp [Real.sqrt_zero]
  · intro _
    show ((maeVal pred tgt : ℚ) : ℝ) ≤ rmseVal pred tgt
    unfold rmseVal
    rw [Real.le_sqrt (by exact_mod_cast maeVal_nonneg pred tgt)
      (by exact_mod_cast mseVal_nonneg pred tgt)]
    exact_mod_cast maeVal_sq_le_mseVal pred tgt

/-- C7 witness: the self metrics vanish on a concrete one-pixel image, and
RMSE dominates MAE on a concrete pair of equal-shaped images. -/
theorem C7_metrics_witness :
    (mae_rmse [[((1/3 : ℚ), (1/4 : ℚ), (1/5 : ℚ))]] [[((1/3 : ℚ), (1/4 : ℚ), (1/5 : ℚ))]]).1
        = 0 ∧
    ((mae_rmse [[((1 : ℚ), (0 : ℚ), (1/2 : ℚ))]] [[((0 : ℚ), (1 : ℚ), (1/2 : ℚ))]]).1 : ℝ)
        ≤ (mae_rmse [[((1 : ℚ), (0 : ℚ), (1/2 : ℚ))]] [[((0 : ℚ), (1 : ℚ), (1/2 : ℚ))]]).2 :=
  ⟨((C7_metrics [[((1/3 : ℚ), (1/4 : ℚ), (1/5 : ℚ))]] [] []).1 (by decide)).1,
    (C7_metrics [] [[((1 : ℚ), (0 : ℚ), (1/2 : ℚ))]] [[((0 : ℚ), (1 : ℚ), (1/2 : ℚ))]]).2
      (by unfold sameShape; rfl)⟩

/-- C4: fit_ridge fails exactly when the normal-equations matrix is singular,
and whenever it returns a coefficient matrix, each of its three columns
solves the corresponding regularized normal equations exactly. -/
theorem C4_fit_ridge (x y : List Pix) (exps : List (ℕ × ℕ × ℕ)) (lam : ℚ) :
    (fit_ridge x y exps lam = none ↔ (normalMatrix x exps lam).det = 0) ∧
    (∀ W, fit_ridge x y exps lam = some W → ∀ c : Fin 3,
      (normalMatrix x exps lam).mulVec (fun j => W j c) = ridgeRhs x y exps c) := by
  constructor
  · unfold fit_ridge
    split_ifs with h
    · simp [h]
    · simp [h]
  · intro W hW c
    unfold fit_ridge at hW
    split_ifs at hW with h
    replace hW := Option.some.inj hW
    subst hW
    have hv : (fun j => (Matrix.of fun j c =>
        ((normalMatrix x exps lam).det)⁻¹
          * Matrix.cramer (normalMatrix x exps lam) (ridgeRhs x y exps c) j) j c)
        = ((normalMatrix x exps lam).det)⁻¹
          • Matrix.cramer (normalMatrix x exps lam) (ridgeRhs x y exps c) := by
      funext j
      rfl
    rw [hv, Matrix.mulVec_smul, Matrix.mulVec_cramer, smul_smul,
      inv_mul_cancel₀ h, one_smul]

/-- C4 witness: a concrete one-pixel, one-feature instance where the system
is nonsingular and the returned column solves it. -/
theorem C4_fit_ridge_witness :
    (fit_ridge [((2:ℚ), (3:ℚ), (5:ℚ))] [((7:ℚ), (11:ℚ), (13:ℚ))] [(0, 0, 0)] 2 = none
      ↔ (normalMatrix [((2:ℚ), (3:ℚ), (5:ℚ))] [(0, 0, 0)] 2).det = 0) ∧
    (normalMatrix [((2:ℚ), (3:ℚ), (5:ℚ))] [(0, 0, 0)] 2).mulVec
        (fun j => (Matrix.of fun _ c => channelGet ((7:ℚ), (11:ℚ), (13:ℚ)) c) j 0)
      = ridgeRhs [((2:ℚ), (3:ℚ), (5:ℚ))] [((7:ℚ), (11:ℚ), (13:ℚ))] [(0, 0, 0)] 0 := by
  have hsumX : ∀ f : Fin (([((2:ℚ), (3:ℚ), (5:ℚ))] : List Pix).length) → ℚ,
      (∑ k, f k) = f ⟨0, by decide⟩ :=
    fun f => Fin.sum_univ_one f
  have hAentry : normalMatrix [((2:ℚ), (3:ℚ), (5:ℚ))] [(0, 0, 0)] 2 ⟨0, by decide⟩ ⟨0, by decide⟩
      = 1 := by
    unfold normalMatrix
    rw [Matrix.add_apply, Matrix.mul_apply,
      hsumX fun k => (polyFeaturesM [((2:ℚ), (3:ℚ), (5:ℚ))] [(0, 0, 0)]).transpose ⟨0, by decide⟩ k
        * polyFeaturesM [((2:ℚ), (3:ℚ), (5:ℚ))] [(0, 0, 0)] k ⟨0, by decide⟩]
    rw [Matrix.smul_apply]
    have hreg : ridgeReg ([((0:ℕ), 0, 0)] : List (ℕ × ℕ × ℕ)).length ⟨0, by decide⟩ ⟨0, by decide⟩
        = 0 := by
      unfold ridgeReg
      rw [Matrix.of_apply, if_neg]
      decide
    rw [hreg]
    unfold polyFeaturesM monomial
    norm_num
  have hdet1 : (normalMatrix [((2:ℚ), (3:ℚ), (5:ℚ))] [(0, 0, 0)] 2).det
      = normalMatrix [((2:ℚ), (3:ℚ), (5:ℚ))] [(0, 0, 0)] 2 ⟨0, by decide⟩ ⟨0, by decide⟩ :=
    Matrix.det_fin_one _
  have hdet : (normalMatrix [((2:ℚ), (3:ℚ), (5:ℚ))] [(0, 0, 0)] 2).det ≠ 0 := by
    rw [hdet1, hAentry]
    norm_num
  have hrhs : ∀ c, ridgeRhs [((2:ℚ), (3:ℚ), (5:ℚ))] [((7:ℚ), (11:ℚ), (13:ℚ))] [(0, 0, 0)] c ⟨0, by decide⟩
      = channelGet ((7:ℚ), (11:ℚ), (13:ℚ)) c := by
    intro c
    unfold ridgeRhs
    show (∑ k, ((polyFeaturesM [((2:ℚ), (3:ℚ), (5:ℚ))] [(0, 0, 0)]).transpose ⟨0, by decide⟩ k)
        * channelGet (([((7:ℚ), (11:ℚ), (13:ℚ))] : List Pix).getD (k : ℕ) (0, 0, 0)) c) = _
    rw [hsumX fun k => ((polyFeaturesM [((2:ℚ), (3:ℚ), (5:ℚ))] [(0, 0, 0)]).transpose ⟨0, by decide⟩ k)
        * channelGet (([((7:ℚ), (11:ℚ), (13:ℚ))] : List Pix).getD (k : ℕ) (0, 0, 0)) c]
    unfold polyFeaturesM monomial
    norm_num
  constructor
  · exact (C4_fit_ridge _ _ _ _).1
  · apply (C4_fit_ridge _ _ _ _).2 _ _ 0
    unfold fit_ridge
    rw [if_neg hdet]
    congr 1
    ext j c
    have hj : j = ⟨0, by decide⟩ := by
      have hlt1 : (j : ℕ) < 1 := j.isLt
      apply Fin.ext
      show (j : ℕ) = 0
      omega
    subst hj
    simp only [Matrix.of_apply]
    rw [Matrix.cramer_apply]
    have hupdet : ((normalMatrix [((2:ℚ), (3:ℚ), (5:ℚ))] [(0, 0, 0)] 2).updateColumn ⟨0, by decide⟩
          (ridgeRhs [((2:ℚ), (3:ℚ), (5:ℚ))] [((7:ℚ), (11:ℚ), (13:ℚ))] [(0, 0, 0)] c)).det
        = ((normalMatrix [((2:ℚ), (3:ℚ), (5:ℚ))] [(0, 0, 0)] 2).updateColumn ⟨0, by decide⟩
          (ridgeRhs [((2:ℚ), (3:ℚ), (5:ℚ))] [((7:ℚ), (11:ℚ), (13:ℚ))] [(0, 0, 0)] c)) ⟨0, by decide⟩
            ⟨0, by decide⟩ :=
      Matrix.det_fin_one _
    rw [hupdet, Matrix.updateColumn_self, hrhs, hdet1, hAentry]
    norm_num

theorem scoreLt_irrefl (s : Score) : ¬ scoreLt s s := by
  intro h
  rcases h with h | ⟨-, h | ⟨-, h | ⟨-, h⟩⟩⟩ <;> exact lt_irrefl _ h

theorem scoreLt_trans {s t u : Score} (h1 : scoreLt s t) (h2 : scoreLt t u) :
    scoreLt s u := by
  obtain ⟨a1, b1, c1, d1⟩ := s
  obtain ⟨a2, b2, c2, d2⟩ := t
  obtain ⟨a3, b3, c3, d3⟩ := u
  unfold scoreLt at h1 h2 ⊢
  dsimp only at h1 h2 ⊢
  rcases h1 with h1 | ⟨rfl, h1⟩
  · rcases h2 with h2 | ⟨rfl, h2⟩
    · exact Or.inl (lt_trans h1 h2)
    · exact Or.inl h1
  · rcases h2 with h2 | ⟨rfl, h2⟩
    · exact Or.inl h2
    · refine Or.inr ⟨rfl, ?_⟩
      rcases h1 with h1 | ⟨rfl, h1⟩
      · rcases h2 with h2 | ⟨rfl, h2⟩
        · exact Or.inl (lt_trans h1 h2)
        · exact Or.inl h1
      · rcases h2 with h2 | ⟨rfl, h2⟩
        · exact Or.inl h2
        · refine Or.inr ⟨rfl, ?_⟩
          rcases h1 with h1 | ⟨rfl, h1⟩
          · rcases h2 with h2 | ⟨rfl, h2⟩
            · exact Or.inl (lt_trans h1 h2)
            · exact Or.inl h1
          · rcases h2 with h2 | ⟨rfl, h2⟩
            · exact Or.inl h2
            · exact Or.inr ⟨rfl, lt_trans h1 h2⟩

theorem scoreLt_total (s t : Score) : scoreLt s t ∨ s = t ∨ scoreLt t s := by
  obtain ⟨a1, b1, c1, d1⟩ := s
  obtain ⟨a2, b2, c2, d2⟩ := t
  unfold scoreLt
  dsimp only
  rcases lt_trichotomy a1 a2 with h | rfl | h
  · exact Or.inl (Or.inl h)
  · rcases lt_trichotomy b1 b2 with h | rfl | h
    · exact Or.inl (Or.inr ⟨rfl, Or.inl h⟩)
    · rcases lt_trichotomy c1 c2 with h | rfl | h
      · exact Or.inl (Or.inr ⟨rfl, Or.inr ⟨rfl, Or.inl h⟩⟩)
      · rcases lt_trichotomy d1 d2 with h | rfl | h
        · exact Or.inl (Or.inr ⟨rfl, Or.inr ⟨rfl, Or.inr ⟨rfl, h⟩⟩⟩)
        · exact Or.inr (Or.inl rfl)
        · exact Or.inr (Or.inr (Or.inr ⟨rfl, Or.inr ⟨rfl, Or.inr ⟨rfl, h⟩⟩⟩))
      · exact Or.inr (Or.inr (Or.inr ⟨rfl, Or.inr ⟨rfl, Or.inl h⟩⟩))
    · exact Or.inr (Or.inr (Or.inr ⟨rfl, Or.inl h⟩))
  · exact Or.inr (Or.inr (Or.inl h))

theorem scoreLe_of_not_scoreLt {s t : Score} (h : ¬ scoreLt s t) :
    scoreLt t s ∨ t = s := by
  rcases scoreLt_total s t with h1 | h1 | h1
  · exact absurd h1 h
  · exact Or.inr h1.symm
  · exact Or.inl h1

theorem scoreLt_of_lt_of_not_lt {r a s : Score} (h1 : scoreLt r a)
    (h2 : ¬ scoreLt s a) : scoreLt r s := by
  rcases scoreLe_of_not_scoreLt h2 with h | rfl
  · exact scoreLt_trans h1 h
  · exact h1

theorem not_scoreLt_first {s t : Score} (h : ¬ scoreLt s t) : t.1 ≤ s.1 := by
  rcases scoreLe_of_not_scoreLt h with h1 | rfl
  · rcases h1 with h1 | ⟨h1, -⟩
    · exact le_of_lt h1
    · exact le_of_eq h1
  · exact le_rfl

theorem selectLoop_spec (score : ℕ → ℚ → Score) :
    ∀ (l : List (ℕ × ℚ)) (acc r : (ℕ × ℚ) × Score),
      selectLoop score (some acc) l = some r →
      (r = acc ∨ (r.1 ∈ l ∧ r.2 = score r.1.1 r.1.2)) ∧
      (¬ scoreLt acc.2 r.2) ∧
      (∀ c ∈ l, ¬ scoreLt (score c.1 c.2) r.2) ∧
      (r = acc ∨ ∃ pre post, l = pre ++ r.1 :: post ∧ scoreLt r.2 acc.2 ∧
        ∀ c ∈ pre, scoreLt r.2 (score c.1 c.2)) := by
  intro l
  induction l with
  | nil =>
    intro acc r hr
    unfold selectLoop at hr
    replace hr := Option.some.inj hr
    subst hr
    exact ⟨Or.inl rfl, scoreLt_irrefl _, by simp, Or.inl rfl⟩
  | cons c rest ih =>
    intro acc r hr
    unfold selectLoop at hr
    dsimp only at hr
    by_cases hbr : scoreLt (score c.1 c.2) acc.2
    · rw [if_pos hbr] at hr
      obtain ⟨hmem, hle, hall, hpre⟩ := ih (c, score c.1 c.2) r hr
      refine ⟨?_, ?_, ?_, ?_⟩
      · rcases hmem with rfl | ⟨hm, hs⟩
        · exact Or.inr ⟨List.mem_cons_self c rest, rfl⟩
        · exact Or.inr ⟨List.mem_cons_of_mem c hm, hs⟩
      · intro hcon
        exact hle (scoreLt_trans hbr hcon)
      · intro c' hc'
        rcases List.mem_cons.mp hc' with rfl | hc'
        · exact hle
        · exact hall c' hc'
      · rcases hpre with rfl | ⟨pre, post, hsplit, hlt, hgt⟩
        · exact Or.inr ⟨[], rest, by simp, hbr, by simp⟩
        · refine Or.inr ⟨c :: pre, post, by rw [hsplit]; rfl, scoreLt_trans hlt hbr, ?_⟩
          intro c' hc'
          rcases List.mem_cons.mp hc' with rfl | hc'
          · exact hlt
          · exact hgt c' hc'
    · rw [if_neg hbr] at hr
      obtain ⟨hmem, hle, hall, hpre⟩ := ih acc r hr
      refine ⟨?_, hle, ?_, ?_⟩
      · rcases hmem with rfl | ⟨hm, hs⟩
        · exact Or.inl rfl
        · exact Or.inr ⟨List.mem_cons_of_mem c hm, hs⟩
      · intro c' hc'
        rcases List.mem_cons.mp hc' with rfl | hc'
        · intro hcon
          exact hbr (scoreLt_of_lt_of_not_lt hcon hle)
        · exact hall c' hc'
      · rcases hpre with rfl | ⟨pre, post, hsplit, hlt, hgt⟩
        · exact Or.inl rfl
        · refine Or.inr ⟨c :: pre, post, by rw [hsplit]; rfl, hlt, ?_⟩
          intro c' hc'
          rcases List.mem_cons.mp hc' with rfl | hc'
          · exact scoreLt_of_lt_of_not_lt hlt hbr
          · exact hgt c' hc'

theorem mem_gridCandidates {max_degree : ℕ} {lambdas : List ℚ} {d : ℕ} {l : ℚ} :
    (d, l) ∈ gridCandidates max_degree lambdas ↔
      1 ≤ d ∧ d ≤ max_degree ∧ l ∈ lambdas := by
  unfold gridCandidates
  simp only [List.mem_flatMap, List.mem_range'_1, List.mem_map, Prod.mk.injEq]
  constructor
  · rintro ⟨d', ⟨h1, h2⟩, l', hl', rfl, rfl⟩
    exact ⟨h1, by omega, hl'⟩
  · rintro ⟨h1, h2, hl⟩
    exact ⟨d, ⟨h1, by omega⟩, l, hl, rfl, rfl⟩

/-- C1: with at least one degree and one lambda, the Model Selector evaluates
exactly the candidates (degree, lambda) with degree between 1 and max_degree
and lambda in the list; it returns a candidate of the grid carrying its own
score; no evaluated candidate scores strictly below the retained one under
the lexicographic tuple order (validation RMSE, validation MAE, feature
count, lambda); every candidate iterated strictly before the retained one
scores strictly above it, so among equal scores the earliest iterated is
kept; and consequently the selected validation RMSE is less than or equal to
the validation RMSE of every candidate evaluated. -/
theorem C1_model_selector (score : ℕ → ℚ → Score) (max_degree : ℕ)
    (lambdas : List ℚ) (h1 : 1 ≤ max_degree) (h2 : lambdas ≠ []) :
    ∃ sel s, selectBest score max_degree lambdas = some (sel, s) ∧
      sel ∈ gridCandidates max_degree lambdas ∧
      s = score sel.1 sel.2 ∧
      (∀ c ∈ gridCandidates max_degree lambdas, ¬ scoreLt (score c.1 c.2) s) ∧
      (∃ pre post, gridCandidates max_degree lambdas = pre ++ sel :: post ∧
        ∀ c ∈ pre, scoreLt s (score c.1 c.2)) ∧
      (∀ c ∈ gridCandidates max_degree lambdas, s.1 ≤ (score c.1 c.2).1) ∧
      (∀ d l, (d, l) ∈ gridCandidates max_degree lambdas ↔
        (1 ≤ d ∧ d ≤ max_degree ∧ l ∈ lambdas)) := by
  obtain ⟨c0, rest, hgrid⟩ : ∃ c0 rest,
      gridCandidates max_degree lambdas = c0 :: rest := by
    obtain ⟨k, rfl⟩ : ∃ k, max_degree = k + 1 := ⟨max_degree - 1, by omega⟩
    obtain ⟨l0, ls, rfl⟩ : ∃ l0 ls, lambdas = l0 :: ls := by
      cases lambdas with
      | nil => exact absurd rfl h2
      | cons l0 ls => exact ⟨l0, ls, rfl⟩
    unfold gridCandidates
    rw [List.range'_succ, List.flatMap_cons, List.map_cons, List.cons_append]
    exact ⟨(1, l0), _, rfl⟩
  have hstep : selectBest score max_degree lambdas
      = selectLoop score (some (c0, score c0.1 c0.2)) rest := by
    unfold selectBest
    rw [hgrid]
    rfl
  obtain ⟨r, hr⟩ : ∃ r, selectLoop score (some (c0, score c0.1 c0.2)) rest = some r := by
    clear hstep hgrid
    induction rest generalizing c0 with
    | nil => exact ⟨(c0, score c0.1 c0.2), rfl⟩
    | cons c rest ih =>
      unfold selectLoop
      dsimp only
      by_cases hbr : scoreLt (score c.1 c.2) (score c0.1 c0.2)
      · rw [if_pos hbr]
        exact ih c
      · rw [if_neg hbr]
        exact ih c0
  obtain ⟨hmem, hle, hall, hpre⟩ := selectLoop_spec score rest (c0, score c0.1 c0.2) r hr
  refine ⟨r.1, r.2, ?_, ?_, ?_, ?_, ?_, ?_, fun d l => mem_gridCandidates⟩
  · rw [hstep, hr]
  · rw [hgrid]
    rcases hmem with rfl | ⟨hm, -⟩
    · exact List.mem_cons_self _ _
    · exact List.mem_cons_of_mem _ hm
  · rcases hmem with rfl | ⟨-, hs⟩
    · rfl
    · exact hs
  · intro c hc
    rw [hgrid] at hc
    rcases List.mem_cons.mp hc with rfl | hc
    · rcases hmem with rfl | _
      · exact scoreLt_irrefl _
      · exact hle
    · exact hall c hc
  · rcases hpre with rfl | ⟨pre, post, hsplit, hlt, hgt⟩
    · exact ⟨[], rest, by rw [hgrid]; rfl, by simp⟩
    · refine ⟨c0 :: pre, post, by rw [hgrid, hsplit]; rfl, ?_⟩
      intro c hc
      rcases List.mem_cons.mp hc with rfl | hc
      · exact hlt
      · exact hgt c hc
  · intro c hc
    rw [hgrid] at hc
    rcases List.mem_cons.mp hc with rfl | hc
    · rcases hmem with rfl | _
      · exact le_rfl
      · exact not_scoreLt_first hle
    · exact not_scoreLt_first (hall c hc)

/-- C1 witness: instantiation of the selector theorem on a concrete scoring
function, two degrees and two lambdas. -/
theorem C1_model_selector_witness :
    ∃ sel s, selectBest (fun d l => ((d : ℚ) + l, 0, (build_exponents d).length, l))
        2 [1, 1/2] = some (sel, s) ∧
      sel ∈ gridCandidates 2 [1, 1/2] ∧
      s = ((sel.1 : ℚ) + sel.2, 0, (build_exponents sel.1).length, sel.2) ∧
      (∀ c ∈ gridCandidates 2 [1, 1/2],
        ¬ scoreLt ((c.1 : ℚ) + c.2, 0, (build_exponents c.1).length, c.2) s) ∧
      (∃ pre post, gridCandidates 2 [1, 1/2] = pre ++ sel :: post ∧
        ∀ c ∈ pre, scoreLt s ((c.1 : ℚ) + c.2, 0, (build_exponents c.1).length, c.2)) ∧
      (∀ c ∈ gridCandidates 2 [1, 1/2],
        s.1 ≤ (((c.1 : ℚ) + c.2, (0:ℚ), (build_exponents c.1).length, c.2) : Score).1) ∧
      (∀ d l, (d, l) ∈ gridCandidates 2 [1, 1/2] ↔ (1 ≤ d ∧ d ≤ 2 ∧ l ∈ [1, 1/2])) :=
  C1_model_selector (fun d l => ((d : ℚ) + l, 0, (build_exponents d).length, l))
    2 [1, 1/2] (by decide) (by simp)

theorem dictInsert_ne_nil (d : List ((String × String) × DFile)) (k : String × String)
    (v : DFile) : dictInsert d k v ≠ [] := by
  unfold dictInsert
  split_ifs with h
  · intro hc
    rcases List.any_eq_true.mp h with ⟨e, he, -⟩
    rw [List.map_eq_nil_iff] at hc
    rw [hc] at he
    exact List.not_mem_nil e he
  · simp

theorem keyMem_dictInsert {d : List ((String × String) × DFile)} {k : String × String}
    {v : DFile} (k' : String × String) :
    keyMem (dictInsert d k v) k' ↔ (k' = k ∨ keyMem d k') := by
  unfold keyMem dictInsert
  split_ifs with h
  · constructor
    · rintro ⟨e, he, hek⟩
      rcases List.mem_map.mp he with ⟨e0, he0, rfl⟩
      by_cases h0 : e0.1 = k
      · rw [if_pos h0] at hek
        exact Or.inl hek.symm
      · rw [if_neg h0] at hek
        exact Or.inr ⟨e0, he0, hek⟩
    · rintro (rfl | ⟨e, he, hek⟩)
      · rcases List.any_eq_true.mp h with ⟨e0, he0, he0k⟩
        refine ⟨(k', v), List.mem_map.mpr ⟨e0, he0, ?_⟩, rfl⟩
        rw [if_pos (of_decide_eq_true he0k)]
      · by_cases h0 : e.1 = k
        · refine ⟨(k, v), List.mem_map.mpr ⟨e, he, by rw [if_pos h0]⟩, ?_⟩
          rw [← h0, hek]
        · exact ⟨e, List.mem_map.mpr ⟨e, he, by rw [if_neg h0]⟩, hek⟩
  · constructor
    · rintro ⟨e, he, hek⟩
      rcases List.mem_append.mp he with he | he
      · exact Or.inr ⟨e, he, hek⟩
      · rw [List.mem_singleton.mp he] at hek
        exact Or.inl hek.symm
    · rintro (rfl | ⟨e, he, hek⟩)
      · exact ⟨(k', v), List.mem_append_right _ (List.mem_singleton_self _), rfl⟩
      · exact ⟨e, List.mem_append_left _ he, hek⟩

theorem dictLookup_isSome_iff (d : List ((String × String) × DFile))
    (k : String × String) : (dictLookup d k).isSome ↔ keyMem d k := by
  unfold dictLookup keyMem
  rw [Option.isSome_map']
  rw [List.find?_isSome]
  constructor
  · rintro ⟨e, he, hek⟩
    exact ⟨e, he, of_decide_eq_true hek⟩
  · rintro ⟨e, he, hek⟩
    exact ⟨e, he, decide_eq_true hek⟩

theorem isOutFile_false_cases {f : DFile}
    (h : isImageFile f = false ∨ strEndsWith (keyStemOf f.stem) "_pred" = true ∨
      strEndsWith (keyStemOf f.stem) "_in" = true ∨
      strEndsWith (keyStemOf f.stem) "_out" = false) :
    isOutFile f = false := by
  unfold isOutFile
  rcases h with h | h | h | h <;> simp [h]

theorem parseStep_outs_keyMem (acc : List ((String × String) × DFile)
    × List ((String × String) × DFile) × List DFile) (f : DFile)
    (k : String × String) :
    keyMem (parseStep acc f).2.1 k ↔
      ((isOutFile f = true ∧ outFileKey f = k) ∨ keyMem acc.2.1 k) := by
  unfold parseStep
  by_cases h1 : isImageFile f
  · rw [if_neg (by rw [h1]; intro hc; cases hc)]
    by_cases h2 : strEndsWith (keyStemOf f.stem) "_pred"
    · rw [if_pos h2]
      have := isOutFile_false_cases (f := f) (Or.inr (Or.inl h2))
      simp [this]
    · rw [if_neg h2]
      by_cases h3 : strEndsWith (keyStemOf f.stem) "_in"
      · rw [if_pos h3]
        have := isOutFile_false_cases (f := f) (Or.inr (Or.inr (Or.inl h3)))
        simp [this]
      · rw [if_neg h3]
        by_cases h4 : strEndsWith (keyStemOf f.stem) "_out"
        · rw [if_pos h4]
          have hout : isOutFile f = true := by
            unfold isOutFile
            rw [h1, h4, Bool.eq_false_iff.mpr h2, Bool.eq_false_iff.mpr h3]
            rfl
          rw [keyMem_dictInsert]
          simp [hout]
          constructor
          · rintro (rfl | hm)
            · exact Or.inl rfl
            · exact Or.inr hm
          · rintro (rfl | hm)
            · exact Or.inl rfl
            · exact Or.inr hm
        · rw [if_neg h4]
          have := isOutFile_false_cases (f := f)
            (Or.inr (Or.inr (Or.inr (Bool.eq_false_iff.mpr h4))))
          simp [this]
  · rw [if_pos (by rw [Bool.eq_false_iff.mpr h1]; rfl)]
    have := isOutFile_false_cases (f := f) (Or.inl (Bool.eq_false_iff.mpr h1))
    simp [this]

theorem parseStep_ins_keyMem (acc : List ((String × String) × DFile)
    × List ((String × String) × DFile) × List DFile) (f : DFile)
    (k : String × String) :
    keyMem (parseStep acc f).1 k ↔
      ((isInFile f = true ∧ inFileKey f = k) ∨ keyMem acc.1 k) := by
  unfold parseStep
  by_cases h1 : isImageFile f
  · rw [if_neg (by rw [h1]; intro hc; cases hc)]
    by_cases h2 : strEndsWith (keyStemOf f.stem) "_pred"
    · rw [if_pos h2]
      have hin : isInFile f = false := by
        unfold isInFile
        simp [h2]
      simp [hin]
    · rw [if_neg h2]
      by_cases h3 : strEndsWith (keyStemOf f.stem) "_in"
      · rw [if_pos h3]
        have hin : isInFile f = true := by
          unfold isInFile
          rw [h1, h3, Bool.eq_false_iff.mpr h2]
          rfl
        rw [keyMem_dictInsert]
        simp [hin]
        constructor
        · rintro (rfl | hm)
          · exact Or.inl rfl
          · exact Or.inr hm
        · rintro (rfl | hm)
          · exact Or.inl rfl
          · exact Or.inr hm
      · rw [if_neg h3]
        have hin : isInFile f = false := by
          unfold isInFile
          simp [Bool.eq_false_iff.mpr h3]
        by_cases h4 : strEndsWith (keyStemOf f.stem) "_out"
        · rw [if_pos h4]
          simp [hin]
        · rw [if_neg h4]
          simp [hin]
  · rw [if_pos (by rw [Bool.eq_false_iff.mpr h1]; rfl)]
    have hin : isInFile f = false := by
      unfold isInFile
      simp [Bool.eq_false_iff.mpr h1]
    simp [hin]

theorem foldl_parseStep_outs_keyMem : ∀ (l : List DFile)
    (acc : List ((String × String) × DFile) × List ((String × String) × DFile) × List DFile)
    (k : String × String),
    keyMem ((l.foldl parseStep acc)).2.1 k ↔
      ((∃ f ∈ l, isOutFile f = true ∧ outFileKey f = k) ∨ keyMem acc.2.1 k) := by
  intro l
  induction l with
  | nil =>
    intro acc k
    simp
  | cons g rest ih =>
    intro acc k
    rw [List.foldl_cons, ih, parseStep_outs_keyMem]
    constructor
    · rintro (hf | (hg | hm))
      · rcases hf with ⟨f, hf, hp⟩
        exact Or.inl ⟨f, List.mem_cons_of_mem g hf, hp⟩
      · exact Or.inl ⟨g, List.mem_cons_self g rest, hg⟩
      · exact Or.inr hm
    · rintro (⟨f, hf, hp⟩ | hm)
      · rcases List.mem_cons.mp hf with rfl | hf
        · exact Or.inr (Or.inl hp)
        · exact Or.inl ⟨f, hf, hp⟩
      · exact Or.inr (Or.inr hm)

theorem foldl_parseStep_ins_keyMem : ∀ (l : List DFile)
    (acc : List ((String × String) × DFile) × List ((String × String) × DFile) × List DFile)
    (k : String × String),
    keyMem ((l.foldl parseStep acc)).1 k ↔
      ((∃ f ∈ l, isInFile f = true ∧ inFileKey f = k) ∨ keyMem acc.1 k) := by
  intro l
  induction l with
  | nil =>
    intro acc k
    simp
  | cons g rest ih =>
    intro acc k
    rw [List.foldl_cons, ih, parseStep_ins_keyMem]
    constructor
    · rintro (hf | (hg | hm))
      · rcases hf with ⟨f, hf, hp⟩
        exact Or.inl ⟨f, List.mem_cons_of_mem g hf, hp⟩
      · exact Or.inl ⟨g, List.mem_cons_self g rest, hg⟩
      · exact Or.inr hm
    · rintro (⟨f, hf, hp⟩ | hm)
      · rcases List.mem_cons.mp hf with rfl | hf
        · exact Or.inr (Or.inl hp)
        · exact Or.inl ⟨f, hf, hp⟩
      · exact Or.inr (Or.inr hm)

theorem mem_parseSamples {files : List DFile} {s : Sample} :
    s ∈ parseSamples files ↔ ∃ e ∈ (parseAcc files).1,
      s = { key := e.1.2, split := e.1.1, in_path := e.2,
            out_path := dictLookup (parseAcc files).2.1 e.1 } := by
  unfold parseSamples
  rw [List.mem_map]
  constructor
  · rintro ⟨e, he, rfl⟩
    rw [List.mem_insertionSort] at he
    exact ⟨e, he, rfl⟩
  · rintro ⟨e, he, rfl⟩
    exact ⟨e, (List.mem_insertionSort _).mpr he, rfl⟩

/-- C10: an input image lacking a paired output is not an error.  If the
directory holds at least one *_in image then parse_dataset succeeds; in any
successful parse, a returned sample's out_path is None exactly when the
directory holds no *_out file with the same (split, key); every *_in image
yields a sample; and the main loop produces one report entry per sample —
each with a prediction file name — recording mae/rmse exactly for the
samples that do have a paired output. -/
theorem C10_unpaired_inputs (files : List DFile) (predImg : Sample → Image)
    (loadImg : DFile → Image) :
    ((∃ f ∈ files, isInFile f = true) → ∃ res, parse_dataset files = Except.ok res) ∧
    (∀ res, parse_dataset files = Except.ok res →
      (∀ s ∈ res.1, (s.out_path = none ↔
        ¬ ∃ f ∈ files, isOutFile f = true ∧ outFileKey f = (s.split, s.key))) ∧
      (∀ f ∈ files, isInFile f = true → ∃ s ∈ res.1, (s.split, s.key) = inFileKey f) ∧
      (mainPerImage predImg loadImg res.1).length = res.1.length ∧
      (∀ s ∈ res.1, ∃ item ∈ mainPerImage predImg loadImg res.1,
        item.key = s.key ∧ item.split = s.split ∧
        item.predName = (if s.split = "val" then "val_" else "") ++ s.key ++ "_pred.jpg" ∧
        (item.metrics = none ↔ s.out_path = none))) := by
  have hins_iff : ∀ k, keyMem (parseAcc files).1 k ↔
      ∃ f ∈ files, isInFile f = true ∧ inFileKey f = k := by
    intro k
    unfold parseAcc
    rw [foldl_parseStep_ins_keyMem]
    constructor
    · rintro (⟨f, hf, hp⟩ | hm)
      · rw [List.mem_insertionSort] at hf
        exact ⟨f, hf, hp⟩
      · rcases hm with ⟨e, he, -⟩
        exact absurd he (List.not_mem_nil e)
    · rintro ⟨f, hf, hp⟩
      exact Or.inl ⟨f, (List.mem_insertionSort _).mpr hf, hp⟩
  have houts_iff : ∀ k, keyMem (parseAcc files).2.1 k ↔
      ∃ f ∈ files, isOutFile f = true ∧ outFileKey f = k := by
    intro k
    unfold parseAcc
    rw [foldl_parseStep_outs_keyMem]
    constructor
    · rintro (⟨f, hf, hp⟩ | hm)
      · rw [List.mem_insertionSort] at hf
        exact ⟨f, hf, hp⟩
      · rcases hm with ⟨e, he, -⟩
        exact absurd he (List.not_mem_nil e)
    · rintro ⟨f, hf, hp⟩
      exact Or.inl ⟨f, (List.mem_insertionSort _).mpr hf, hp⟩
  constructor
  · rintro ⟨f, hf, hin⟩
    have hk : keyMem (parseAcc files).1 (inFileKey f) := (hins_iff _).mpr ⟨f, hf, hin, rfl⟩
    obtain ⟨e, he, -⟩ := hk
    have hne : parseSamples files ≠ [] := by
      intro hc
      have hmem : ({ key := e.1.2, split := e.1.1, in_path := e.2, out_path := dictLookup (parseAcc files).2.1 e.1 } : Sample) ∈ parseSamples files :=
        mem_parseSamples.mpr ⟨e, he, rfl⟩
      rw [hc] at hmem
      exact List.not_mem_nil _ hmem
    have hfalse : (parseSamples files).isEmpty = false := List.isEmpty_eq_false.mpr hne
    refine ⟨(parseSamples files, (parseAcc files).2.2,
      ((List.insertionSort (fun a b => pairLe a.1 b.1 = true) (parseAcc files).2.1).filter fun e =>
        !((parseAcc files).1.any fun e2 => decide (e2.1 = e.1))).map fun e => e.2), ?_⟩
    unfold parse_dataset
    rw [if_neg (by rw [hfalse]; intro hc; cases hc)]
  · intro res hres
    have hres1 : res.1 = parseSamples files := by
      unfold parse_dataset at hres
      by_cases h : (parseSamples files).isEmpty
      · rw [if_pos h] at hres
        cases hres
      · rw [if_neg h] at hres
        exact congrArg Prod.fst (Except.ok.inj hres).symm
    refine ⟨?_, ?_, ?_, ?_⟩
    · intro s hs
      rw [hres1] at hs
      obtain ⟨e, he, rfl⟩ := mem_parseSamples.mp hs
      show dictLookup (parseAcc files).2.1 e.1 = none ↔ _
      rw [← Option.not_isSome_iff_eq_none, dictLookup_isSome_iff, houts_iff]
    · intro f hf hin
      obtain ⟨e, he, hek⟩ := (hins_iff (inFileKey f)).mpr ⟨f, hf, hin, rfl⟩
      refine ⟨({ key := e.1.2, split := e.1.1, in_path := e.2, out_path := dictLookup (parseAcc files).2.1 e.1 } : Sample), ?_, ?_⟩
      · rw [hres1]
        exact mem_parseSamples.mpr ⟨e, he, rfl⟩
      · show ((e.1.1, e.1.2) : String × String) = inFileKey f
        rw [show ((e.1.1, e.1.2) : String × String) = e.1 from rfl, hek]
    · unfold mainPerImage
      rw [List.length_map]
    · intro s hs
      refine ⟨_, List.mem_map.mpr ⟨s, hs, rfl⟩, rfl, rfl, rfl, ?_⟩
      show s.out_path.map _ = none ↔ s.out_path = none
      cases s.out_path <;> simp

/-- C10 witness: a directory with inputs a_in.jpg and b_in.jpg where only b
has a paired output parses successfully, and the unpaired-input
characterization holds for its samples. -/
theorem C10_unpaired_inputs_witness :
    ∃ res, parse_dataset [⟨"a_in", ".jpg"⟩, ⟨"b_in", ".jpg"⟩, ⟨"b_out", ".jpg"⟩]
        = Except.ok res ∧
      ∀ s ∈ res.1, (s.out_path = none ↔
        ¬ ∃ f ∈ [(⟨"a_in", ".jpg"⟩ : DFile), ⟨"b_in", ".jpg"⟩, ⟨"b_out", ".jpg"⟩],
          isOutFile f = true ∧ outFileKey f = (s.split, s.key)) := by
  obtain ⟨res, hres⟩ :=
    (C10_unpaired_inputs [⟨"a_in", ".jpg"⟩, ⟨"b_in", ".jpg"⟩, ⟨"b_out", ".jpg"⟩]
      (fun _ => []) fun _ => []).1 (by decide)
  exact ⟨res, hres,
    ((C10_unpaired_inputs [⟨"a_in", ".jpg"⟩, ⟨"b_in", ".jpg"⟩, ⟨"b_out", ".jpg"⟩]
      (fun _ => []) fun _ => []).2 res hres).1⟩

end Subtext

